import Mathlib

/-!
Verification development for the Configuration Discovery & Synthesis Engine of
the plugins-automation repository (src/agentConfigScan.ts and the scanner
section of src/migratePlugins.ts).

The TypeScript data model and the pure core of each operation are embedded
shallowly: Record objects become insertion-ordered association lists over
String keys, optional fields become Option, JavaScript falsiness of an
optional string (undefined or empty) becomes an explicit predicate, and the
fallible JSON.parse becomes an Option-valued parser.
-/

namespace PluginsAutomation

/-! ## Data model

Mirrors the two interfaces declared at the top of agentConfigScan.ts and of
the scanner section of migratePlugins.ts. -/

/-- Attributes attached to one key of AgentConfig.pluginParameters:
type, description, optional required, optional default. -/
structure Param where
  type : String
  description : String
  required : Option Bool
  default : Option String
deriving DecidableEq

/-- The value of the pluginParameters Record: an insertion-ordered mapping
from variable name to its attributes. A TypeScript Record object keeps keys
unique and in insertion order; we model it as an association list and carry
a Nodup hypothesis on the key list where a theorem needs uniqueness. -/
abbrev PluginParams := List (String × Param)

/-- The persisted agentConfig object of one package (interface AgentConfig). -/
structure AgentConfig where
  pluginType : String
  pluginParameters : PluginParams
deriving DecidableEq

/-- One discovered environment-variable declaration (interface EnvVariable). -/
structure EnvVariable where
  name : String
  type : String
  description : String
  required : Option Bool
  defaultValue : Option String
deriving DecidableEq

/-- Property read obj[key] on the Record model: the value at the first
matching key, none when the key is absent. -/
def jsGet : PluginParams → String → Option Param
  | [], _ => none
  | (k, v) :: rest, key => if k = key then some v else jsGet rest key

/-- The key list of a parameter map. -/
def paramKeys (ps : PluginParams) : List String := ps.map Prod.fst

/-- JavaScript truthiness of an optional string value: undefined and the
empty string are falsy, every other string is truthy. -/
def jsTruthyStr : Option String → Bool
  | none => false
  | some s => s ≠ ""

/-! ## Declaration Merger: mergeEnvVariables

Embedded from mergeEnvVariables (agentConfigScan.ts lines 272-307,
identical in migratePlugins.ts lines 627-662). -/

/-- Body of the for-loop over discovered declarations inside
mergeEnvVariables: insert envVar only if its name is not yet a key; attach
required exactly when the field is present (not undefined) and default only
when defaultValue is truthy (present and non-empty). A new Record key is
appended in insertion order. -/
def attachDiscovered (params : PluginParams) (envVar : EnvVariable) : PluginParams :=
  match jsGet params envVar.name with
  | some _ => params
  | none =>
    let entry : Param :=
      { type := envVar.type, description := envVar.description
        required := none, default := none }
    let entry := if envVar.required ≠ none then { entry with required := envVar.required } else entry
    let entry := if jsTruthyStr envVar.defaultValue then { entry with default := envVar.defaultValue } else entry
    params ++ [(envVar.name, entry)]

/-- mergeEnvVariables: start from the existing config when present (spread
copies its parameter map) or from the default empty config, then run the
insertion loop over the discovered list. -/
def mergeEnvVariables (existing : Option AgentConfig) (discovered : List EnvVariable) : AgentConfig :=
  let baseConfig : AgentConfig :=
    match existing with
    | some e => { pluginType := e.pluginType, pluginParameters := e.pluginParameters }
    | none => { pluginType := "elizaos:plugin:1.0.0", pluginParameters := [] }
  { baseConfig with pluginParameters := discovered.foldl attachDiscovered baseConfig.pluginParameters }

/-! ## Change Detector: hasConfigurationChanged

Embedded from hasConfigurationChanged (migratePlugins.ts lines 704-737). -/

/-- The per-entry comparison of the loop body: true when any of the four
attributes differs between the prior entry and the merged entry. -/
def paramValueDiffers (existingValue value : Param) : Bool :=
  existingValue.type != value.type ||
  existingValue.description != value.description ||
  existingValue.required != value.required ||
  existingValue.default != value.default

/-- hasConfigurationChanged: true when the prior configuration is absent,
the parameter-key counts differ, or some merged entry is missing from the
prior map or differs in an attribute; false otherwise. The loop over
Object.entries(updatedParams) visits entries in insertion order. -/
def hasConfigurationChanged (existing : Option AgentConfig) (updated : AgentConfig) : Bool :=
  match existing with
  | none => true
  | some e =>
    let existingParams := e.pluginParameters
    let updatedParams := updated.pluginParameters
    if existingParams.length != updatedParams.length then true
    else if updatedParams.any (fun kv =>
        match jsGet existingParams kv.fst with
        | none => true
        | some existingValue => paramValueDiffers existingValue kv.snd) then true
    else false

/-! ## Declaration dedup inside processRepository

Embedded from the uniqueEnvVars filter (migratePlugins.ts lines 836-840,
agentConfigScan.ts lines 503-507):
allEnvVars.filter((envVar, index, self) =>
  index === self.findIndex((e) => e.name === envVar.name)). -/

/-- The filter keeps the element at a position exactly when findIndex on the
whole list returns that same position for its name. List.enum supplies the
index argument of the JavaScript filter callback. -/
def dedupByName (self : List EnvVariable) : List EnvVariable :=
  (self.enum.filter
    (fun p => self.findIdx (fun e => e.name == p.snd.name) == p.fst)).map Prod.snd

/-- Spec-side formulation of the dedup contract (section 4.4 and the dedup
determinism property): walk the list once, keep a declaration only when its
name has not been seen before, in list order. Used as the comparison point
for the refinement theorem about dedupByName. -/
def keepFirstByName (seen : List String) : List EnvVariable → List EnvVariable
  | [] => []
  | v :: rest =>
    if v.name ∈ seen then keepFirstByName seen rest
    else v :: keepFirstByName (v.name :: seen) rest

/-! ## Batch Coordinator

Embedded from the batching loop of processRepository (migratePlugins.ts
lines 811-834, agentConfigScan.ts lines 486-501):
for (let i = 0; i < files.length; i += 5) batch = files.slice(i, i + 5);
await Promise.all(batch.map(analyze)); push all results; delay if more.
Promise.all resolves with the results in the order of its input array, so
the per-batch result list is batch.map analyze regardless of which call
completes first; the await before the next iteration serializes batches. -/

/-- Concatenation of a list of result lists, in order, mirroring the
accumulator pushes allEnvVars.push(...result) over a batch result array. -/
def concatLists {β : Type} (ls : List (List β)) : List β :=
  ls.foldl (fun acc l => acc ++ l) []

/-- One run of the batching for-loop from index i: slice the next batch of
five, analyze its files, append all results in order, count one suspension
when further batches remain, then continue at i + 5. -/
def processBatchesAux {α β : Type} (analyze : α → List β) (files : List α)
    (i : Nat) (allEnvVars : List β) (delays : Nat) : List β × Nat :=
  if i < files.length then
    let batch := (files.drop i).take 5
    let batchResults := batch.map analyze
    let allEnvVars := batchResults.foldl (fun acc l => acc ++ l) allEnvVars
    let delays := if i + 5 < files.length then delays + 1 else delays
    processBatchesAux analyze files (i + 5) allEnvVars delays
  else (allEnvVars, delays)
termination_by files.length - i
decreasing_by omega

/-- The whole batching phase: accumulated declarations plus the number of
inter-batch rate-limit suspensions performed. -/
def processBatches {α β : Type} (analyze : α → List β) (files : List α) : List β × Nat :=
  processBatchesAux analyze files 0 [] 0

/-- The sequence of slices files.slice(i, i + 5) the loop takes, in order. -/
def batchSlices {α : Type} (files : List α) (i : Nat) : List (List α) :=
  if i < files.length then ((files.drop i).take 5) :: batchSlices files (i + 5) else []
termination_by files.length - i
decreasing_by omega

/-- Helper for stating the suspension count: one per iteration that still
has further batches after it, following the same control flow as the loop. -/
def delayCount {α : Type} (files : List α) (i : Nat) : Nat :=
  if i < files.length then
    (if i + 5 < files.length then 1 else 0) + delayCount files (i + 5)
  else 0
termination_by files.length - i
decreasing_by omega

/-! ## Artifact Selector: scanFilesForEnvVars / walkDir

Embedded from scanFilesForEnvVars (agentConfigScan.ts lines 129-155,
migratePlugins.ts lines 445-471). A directory entry is either a file or a
directory; fs.readdir on an unreadable directory rejects, and walkDir has
no try/catch, so the rejection propagates out of the whole traversal: the
Except models that propagation. -/

/-- One node of the working tree at traversal time. The readable flag is
whether fs.readdir succeeds on a directory. -/
inductive FSEntry where
  | file (name : String)
  | dir (name : String) (readable : Bool) (entries : List FSEntry)

/-- The fixed extension allow-list of scanFilesForEnvVars. -/
def allowedExtensions : List String := [".ts", ".js", ".tsx", ".jsx", ".md", ".json"]

/-- JavaScript item.endsWith(ext): the suffix test, stated on the character
lists of the two strings. -/
def strEndsWith (s suffix : String) : Bool := List.isSuffixOf suffix.data s.data

/-- The fixed directory deny-list of walkDir. -/
def skipDirNames : List String := ["node_modules", ".git", "dist", "build", ".next"]

/-- The body of walkDir, iterating a directory item list: recurse into
non-denied subdirectories (an unreadable one makes readdir throw, which
aborts the traversal), and collect files whose name ends in an allowed
extension. files is the shared accumulator closed over by walkDir. -/
def walkItems (files : List String) (dirPath : String) : List FSEntry → Except Unit (List String)
  | [] => .ok files
  | .file name :: rest =>
    let fullPath := dirPath ++ "/" ++ name
    let files := if allowedExtensions.any (fun ext => strEndsWith name ext)
      then files ++ [fullPath] else files
    walkItems files dirPath rest
  | .dir name readable entries :: rest =>
    let fullPath := dirPath ++ "/" ++ name
    if skipDirNames.contains name then walkItems files dirPath rest
    else if readable then
      match walkItems files fullPath entries with
      | .ok files => walkItems files dirPath rest
      | .error e => .error e
    else .error ()

/-- scanFilesForEnvVars: start the walk at the repository root with an
empty accumulator. readdir on the root itself can also fail. -/
def scanFilesForEnvVars (repoPath : String) (root : FSEntry) : Except Unit (List String) :=
  match root with
  | .dir _ true entries => walkItems [] repoPath entries
  | _ => .error ()

/-! ## Version Deriver: the patch bump inside updatePackageJson

Embedded from updatePackageJson (agentConfigScan.ts lines 323-333,
migratePlugins.ts lines 678-688): split the version on dots; when exactly
three components result, rebuild the string from parseInt(part) with a 0
fallback and the third component incremented. -/

/-- JavaScript String.prototype.split with separator "." on the character
list: split at every dot; the empty string yields one empty part. -/
def splitDotChars : List Char → List (List Char)
  | [] => [[]]
  | c :: rest =>
    if c = '.' then [] :: splitDotChars rest
    else
      match splitDotChars rest with
      | [] => [[c]]
      | p :: ps => (c :: p) :: ps

/-- version.split(".") on strings. -/
def jsSplitDot (s : String) : List String :=
  (splitDotChars s.data).map List.asString

/-- The whitespace characters parseInt skips (the ASCII ones; the further
Unicode whitespace JavaScript skips does not occur in version strings). -/
def jsWhitespace (c : Char) : Bool :=
  c == ' ' || c == '\t' || c == '\n' || c == '\r' || c == '\x0b' || c == '\x0c'

/-- Whether a character is a hexadecimal digit. -/
def isHexDigit (c : Char) : Bool :=
  c.isDigit || ('a' ≤ c && c ≤ 'f') || ('A' ≤ c && c ≤ 'F')

/-- Numeric value of a decimal or hexadecimal digit character. -/
def hexDigitVal (c : Char) : Nat :=
  if c.isDigit then c.toNat - '0'.toNat
  else if 'a' ≤ c && c ≤ 'f' then c.toNat - 'a'.toNat + 10
  else c.toNat - 'A'.toNat + 10

/-- Value of a digit-character list read in the given radix. -/
def digitsToNat (radix : Nat) (ds : List Char) : Nat :=
  ds.foldl (fun acc c => acc * radix + hexDigitVal c) 0

/-- The optional sign at the front of a parseInt input: a consumed minus
sets the negative flag, a consumed plus does not, anything else is left. -/
def stripSign : List Char → Bool × List Char
  | '-' :: rest => (true, rest)
  | '+' :: rest => (false, rest)
  | cs => (false, cs)

/-- The optional hexadecimal prefix of a parseInt input with no radix
argument: 0x or 0X selects radix 16, anything else radix 10. -/
def stripHexMark : List Char → Nat × List Char
  | '0' :: 'x' :: rest => (16, rest)
  | '0' :: 'X' :: rest => (16, rest)
  | cs => (10, cs)

/-- JavaScript parseInt with no radix argument: skip whitespace, take an
optional sign, use radix 16 after a 0x or 0X prefix and 10 otherwise, read
the longest digit prefix, and return NaN (none) when no digit is present. -/
def parseIntJs (s : String) : Option Int :=
  let cs := s.data.dropWhile jsWhitespace
  let sc := stripSign cs
  let rc := stripHexMark sc.snd
  let ds := if rc.fst = 16 then rc.snd.takeWhile isHexDigit else rc.snd.takeWhile Char.isDigit
  if ds.isEmpty then none
  else
    let n : Nat := digitsToNat rc.fst ds
    some (if sc.fst then -(n : Int) else (n : Int))

/-- The version rewrite of updatePackageJson. parseInt(x) || 0 collapses
NaN (and 0 itself, and negative zero) to 0, which Option.getD 0 renders
faithfully; the template literal stringifies each number in decimal. -/
def bumpVersion (version : String) : String :=
  match jsSplitDot version with
  | [p1, p2, p3] =>
    let major := (parseIntJs p1).getD 0
    let minor := (parseIntJs p2).getD 0
    let patch := (parseIntJs p3).getD 0
    toString major ++ "." ++ toString minor ++ "." ++ toString (patch + 1)
  | _ => version

/-- The ten decimal digit characters; Nat.repr only ever emits these. -/
def decimalChars : List Char := ['0', '1', '2', '3', '4', '5', '6', '7', '8', '9']

/-- Proof helper: digitsToNat as a fold from an arbitrary accumulator. -/
def valAux (acc : Nat) (ds : List Char) : Nat :=
  ds.foldl (fun a c => a * 10 + hexDigitVal c) acc

/-- Proof helper: the value obtained after folding the decimal digits of n
onto an accumulator, defined by the same division structure as
Nat.toDigitsCore. -/
def absorb (acc n : Nat) : Nat :=
  if n < 10 then acc * 10 + n
  else absorb acc (n / 10) * 10 + n % 10
termination_by n
decreasing_by exact Nat.div_lt_self (by omega) (by omega)

/-! ## Declaration Extractor: response parsing in analyzeFileWithLLM

Embedded from analyzeFileWithLLM (migratePlugins.ts lines 549-583 for the
variant with the embedded-array fallback, agentConfigScan.ts lines 217-228
for the strict-parse variant). JSON.parse is modelled by a JSON value
parser; numeric literals are kept as their lexemes because no claim
inspects a number, and object members are kept in textual order. -/

/-- A parsed JSON value. -/
inductive JValue where
  | null
  | bool (b : Bool)
  | num (lexeme : String)
  | str (s : String)
  | arr (elems : List JValue)
  | obj (members : List (String × JValue))
deriving Inhabited

/-- The whitespace characters JSON permits between tokens. -/
def isJsonWs (c : Char) : Bool :=
  c == ' ' || c == '\t' || c == '\n' || c == '\r'

/-- Drop JSON whitespace. -/
def skipJsonWs (cs : List Char) : List Char := cs.dropWhile isJsonWs

/-- Value of a hexadecimal digit, for string \u escapes. -/
def hexVal? (c : Char) : Option Nat :=
  if isHexDigit c then some (hexDigitVal c) else none

/-- Parse the body of a JSON string after the opening quote, returning the
decoded string and the rest of the input. A code point from a \u escape
which is not a valid scalar value decodes to the null character (lone
surrogates are out of scope for every claim). -/
def parseJsonStringBody : List Char → List Char → Option (String × List Char)
  | _, [] => none
  | acc, c :: rest =>
    if c = '"' then some (String.mk acc.reverse, rest)
    else if c = '\\' then
      match rest with
      | [] => none
      | e :: rest2 =>
        match e with
        | '"' => parseJsonStringBody ('"' :: acc) rest2
        | '\\' => parseJsonStringBody ('\\' :: acc) rest2
        | '/' => parseJsonStringBody ('/' :: acc) rest2
        | 'b' => parseJsonStringBody ('\x08' :: acc) rest2
        | 'f' => parseJsonStringBody ('\x0c' :: acc) rest2
        | 'n' => parseJsonStringBody ('\n' :: acc) rest2
        | 'r' => parseJsonStringBody ('\r' :: acc) rest2
        | 't' => parseJsonStringBody ('\t' :: acc) rest2
        | 'u' =>
          match rest2 with
          | h1 :: h2 :: h3 :: h4 :: rest3 =>
            match hexVal? h1, hexVal? h2, hexVal? h3, hexVal? h4 with
            | some a, some b, some c3, some d =>
              parseJsonStringBody (Char.ofNat (((a * 16 + b) * 16 + c3) * 16 + d) :: acc) rest3
            | _, _, _, _ => none
          | _ => none
        | _ => none
    else if c.toNat < 0x20 then none
    else parseJsonStringBody (c :: acc) rest

/-- Parse a JSON number token, keeping its lexeme. -/
def parseJsonNumber (cs : List Char) : Option (JValue × List Char) :=
  let (sign, cs1) : List Char × List Char :=
    match cs with
    | '-' :: r => (['-'], r)
    | _ => ([], cs)
  match cs1 with
  | [] => none
  | c :: _ =>
    if ¬ c.isDigit then none
    else
      let intPart := if c = '0' then ['0'] else cs1.takeWhile Char.isDigit
      let rest1 := cs1.drop intPart.length
      let fracState : Option (List Char × List Char) :=
        match rest1 with
        | '.' :: r =>
          let ds := r.takeWhile Char.isDigit
          if ds.isEmpty then none else some ('.' :: ds, r.drop ds.length)
        | _ => some ([], rest1)
      match fracState with
      | none => none
      | some (frac, rest2) =>
        let expState : Option (List Char × List Char) :=
          match rest2 with
          | e :: r =>
            if e = 'e' ∨ e = 'E' then
              let (sgn, r2) : List Char × List Char :=
                match r with
                | '+' :: rr => (['+'], rr)
                | '-' :: rr => (['-'], rr)
                | _ => ([], r)
              let ds := r2.takeWhile Char.isDigit
              if ds.isEmpty then none else some (e :: (sgn ++ ds), r2.drop ds.length)
            else some ([], rest2)
          | [] => some ([], rest2)
        match expState with
        | none => none
        | some (ex, rest3) =>
          some (JValue.num (String.mk (sign ++ intPart ++ frac ++ ex)), rest3)

mutual

/-- Parse one JSON value from the input, fuel-bounded. -/
def parseJsonValue : Nat → List Char → Option (JValue × List Char)
  | 0, _ => none
  | fuel + 1, cs =>
    match skipJsonWs cs with
    | 'n' :: 'u' :: 'l' :: 'l' :: rest => some (.null, rest)
    | 't' :: 'r' :: 'u' :: 'e' :: rest => some (.bool true, rest)
    | 'f' :: 'a' :: 'l' :: 's' :: 'e' :: rest => some (.bool false, rest)
    | '"' :: rest =>
      match parseJsonStringBody [] rest with
      | some (s, rest2) => some (.str s, rest2)
      | none => none
    | '[' :: rest =>
      match skipJsonWs rest with
      | ']' :: rest2 => some (.arr [], rest2)
      | _ => parseJsonArrayItems fuel rest []
    | '\x7b' :: rest =>
      match skipJsonWs rest with
      | '\x7d' :: rest2 => some (.obj [], rest2)
      | _ => parseJsonObjectMembers fuel rest []
    | cs2 => parseJsonNumber cs2

/-- Parse the remaining comma-separated elements of a non-empty array. -/
def parseJsonArrayItems : Nat → List Char → List JValue → Option (JValue × List Char)
  | 0, _, _ => none
  | fuel + 1, cs, acc =>
    match parseJsonValue fuel cs with
    | none => none
    | some (v, rest) =>
      match skipJsonWs rest with
      | ',' :: rest2 => parseJsonArrayItems fuel rest2 (acc ++ [v])
      | ']' :: rest2 => some (.arr (acc ++ [v]), rest2)
      | _ => none

/-- Parse the remaining comma-separated members of a non-empty object. -/
def parseJsonObjectMembers : Nat → List Char → List (String × JValue) → Option (JValue × List Char)
  | 0, _, _ => none
  | fuel + 1, cs, acc =>
    match skipJsonWs cs with
    | '"' :: rest =>
      match parseJsonStringBody [] rest with
      | none => none
      | some (key, rest2) =>
        match skipJsonWs rest2 with
        | ':' :: rest3 =>
          match parseJsonValue fuel rest3 with
          | none => none
          | some (v, rest4) =>
            match skipJsonWs rest4 with
            | ',' :: rest5 => parseJsonObjectMembers fuel rest5 (acc ++ [(key, v)])
            | '\x7d' :: rest5 => some (.obj (acc ++ [(key, v)]), rest5)
            | _ => none
        | _ => none
    | _ => none

end

/-- JSON.parse: parse one value and require only whitespace to follow. -/
def jsonParse (s : String) : Option JValue :=
  match parseJsonValue (s.length + 1) s.data with
  | some (v, rest) => if (skipJsonWs rest).isEmpty then some v else none
  | none => none

/-- JavaScript String.prototype.trim, modelled on the character list: drop
whitespace from both ends (the ASCII whitespace set suffices for every
input a claim mentions). -/
def jsTrim (s : String) : String :=
  ((s.data.dropWhile jsWhitespace).reverse.dropWhile jsWhitespace).reverse.asString

/-- The regex match responseText.match(/\[[\s\S]*\]/): the leftmost-greedy
match runs from the first opening bracket to the last closing bracket after
it, when both exist. -/
def arrayMatch (s : String) : Option String :=
  let cs := s.data
  match cs.findIdx? (fun c => c == '['), cs.reverse.findIdx? (fun c => c == ']') with
  | some i, some k =>
    let j := cs.length - 1 - k
    if i < j then some (List.asString ((cs.drop i).take (j - i + 1))) else none
  | _, _ => none

/-- The response handling of analyzeFileWithLLM in migratePlugins.ts: trim,
return [] on an empty response, prefer the embedded array-shaped substring
when one matches, JSON.parse the chosen text, keep the elements when the
result is an array, and return [] from every failure branch of the catch. -/
def extractEnvVarsFallback (responseText0 : String) : List JValue :=
  let responseText := jsTrim responseText0
  if responseText = "" then []
  else
    let jsonText := match arrayMatch responseText with
      | some m => m
      | none => responseText
    match jsonParse jsonText with
    | some (.arr vars) => vars
    | some _ => []
    | none => []

/-- The response handling of analyzeFileWithLLM in agentConfigScan.ts:
trim, return [] on an empty response, strict JSON.parse of the whole
response only, keep the elements when the result is an array, and return []
when parsing fails. -/
def extractEnvVarsStrict (responseText0 : String) : List JValue :=
  let responseText := jsTrim responseText0
  if responseText = "" then []
  else
    match jsonParse responseText with
    | some (.arr vars) => vars
    | some _ => []
    | none => []

/-- Read a string-valued member of a parsed declaration object, as the
consumers of the extractor read envVar.name. -/
def jvStringField (v : JValue) (key : String) : Option String :=
  match v with
  | .obj members =>
    match members.lookup key with
    | some (.str s) => some s
    | _ => none
  | _ => none

/-! ## Lemmas about jsGet and the merge loop -/

theorem jsGet_append_left {ps : PluginParams} {k : String} {p : Param}
    (h : jsGet ps k = some p) (qs : PluginParams) : jsGet (ps ++ qs) k = some p := by
  induction ps with
  | nil => simp [jsGet] at h
  | cons hd tl ih =>
    obtain ⟨hk, hv⟩ := hd
    simp only [jsGet, List.cons_append] at h ⊢
    split at h
    · simp [*]
    · simp only [*, if_neg]
      exact ih h

theorem jsGet_append_right {ps : PluginParams} {k : String}
    (h : jsGet ps k = none) (qs : PluginParams) : jsGet (ps ++ qs) k = jsGet qs k := by
  induction ps with
  | nil => simp
  | cons hd tl ih =>
    obtain ⟨hk, hv⟩ := hd
    simp only [jsGet, List.cons_append] at h ⊢
    split at h
    · exact absurd h (by simp)
    · simp only [*, if_neg]
      exact ih h

theorem jsGet_attachDiscovered_preserved {ps : PluginParams} {k : String} {p : Param}
    (h : jsGet ps k = some p) (v : EnvVariable) : jsGet (attachDiscovered ps v) k = some p := by
  unfold attachDiscovered
  split
  · exact h
  · exact jsGet_append_left h _

theorem jsGet_foldl_attach_preserved {ps : PluginParams} {k : String} {p : Param}
    (h : jsGet ps k = some p) (l : List EnvVariable) :
    jsGet (l.foldl attachDiscovered ps) k = some p := by
  induction l generalizing ps with
  | nil => exact h
  | cons v rest ih => exact ih (jsGet_attachDiscovered_preserved h v)

theorem jsGet_attachDiscovered_isSome {ps : PluginParams} {k : String}
    (h : (jsGet ps k).isSome) (v : EnvVariable) : (jsGet (attachDiscovered ps v) k).isSome := by
  obtain ⟨p, hp⟩ := Option.isSome_iff_exists.mp h
  rw [jsGet_attachDiscovered_preserved hp v]
  rfl

theorem jsGet_attachDiscovered_self (ps : PluginParams) (v : EnvVariable) :
    (jsGet (attachDiscovered ps v) v.name).isSome := by
  unfold attachDiscovered
  split
  · simp_all
  · rename_i hnone
    rw [jsGet_append_right hnone]
    simp [jsGet]

theorem jsGet_foldl_attach_isSome {ps : PluginParams} {k : String}
    (h : (jsGet ps k).isSome) (l : List EnvVariable) :
    (jsGet (l.foldl attachDiscovered ps) k).isSome := by
  induction l generalizing ps with
  | nil => exact h
  | cons v rest ih => exact ih (jsGet_attachDiscovered_isSome h v)

theorem jsGet_foldl_attach_mem {l : List EnvVariable} {v : EnvVariable}
    (hv : v ∈ l) (ps : PluginParams) :
    (jsGet (l.foldl attachDiscovered ps) v.name).isSome := by
  induction l generalizing ps with
  | nil => cases hv
  | cons w rest ih =>
    rcases List.mem_cons.mp hv with h | h
    · subst h
      simp only [List.foldl_cons]
      exact jsGet_foldl_attach_isSome (jsGet_attachDiscovered_self ps v) rest
    · exact ih h _

theorem foldl_attach_of_all_present {l : List EnvVariable} {ps : PluginParams}
    (h : ∀ v ∈ l, (jsGet ps v.name).isSome) : l.foldl attachDiscovered ps = ps := by
  induction l with
  | nil => rfl
  | cons v rest ih =>
    have hv : (jsGet ps v.name).isSome := h v (List.mem_cons_self v rest)
    obtain ⟨p, hp⟩ := Option.isSome_iff_exists.mp hv
    have hstep : attachDiscovered ps v = ps := by
      unfold attachDiscovered
      rw [hp]
    simp only [List.foldl_cons, hstep]
    exact ih fun w hw => h w (List.mem_cons_of_mem v hw)

/-! ## Further jsGet lemmas, for the Change Detector -/

theorem jsGet_eq_none_iff {ps : PluginParams} {k : String} :
    jsGet ps k = none ↔ k ∉ paramKeys ps := by
  induction ps with
  | nil => simp [jsGet, paramKeys]
  | cons hd tl ih =>
    obtain ⟨hk, hv⟩ := hd
    simp only [jsGet, paramKeys, List.map_cons, List.mem_cons]
    split
    · simp [*]
    · rename_i hne
      simp only [paramKeys] at ih
      rw [ih]
      constructor
      · intro h hmem
        rcases hmem with h1 | h1
        · exact hne h1.symm
        · exact h h1
      · intro h h1
        exact h (Or.inr h1)

theorem jsGet_mem {ps : PluginParams} {k : String} {v : Param}
    (h : jsGet ps k = some v) : (k, v) ∈ ps := by
  induction ps with
  | nil => simp [jsGet] at h
  | cons hd tl ih =>
    obtain ⟨hk, hv⟩ := hd
    simp only [jsGet] at h
    split at h
    · subst_vars
      injection h with h
      subst h
      exact List.mem_cons_self _ _
    · exact List.mem_cons_of_mem _ (ih h)

theorem jsGet_of_mem_nodup {ps : PluginParams} {k : String} {v : Param}
    (hnd : (paramKeys ps).Nodup) (h : (k, v) ∈ ps) : jsGet ps k = some v := by
  induction ps with
  | nil => cases h
  | cons hd tl ih =>
    obtain ⟨hk, hv⟩ := hd
    simp only [paramKeys, List.map_cons, List.nodup_cons] at hnd
    rcases List.mem_cons.mp h with h1 | h1
    · injection h1 with h1 h2
      subst_vars
      simp [jsGet]
    · have hne : hk ≠ k := by
        intro he
        subst he
        exact hnd.1 (List.mem_map.mpr ⟨(hk, v), h1, rfl⟩)
      simp only [jsGet, if_neg hne]
      exact ih hnd.2 h1

theorem jsGet_isSome_iff {ps : PluginParams} {k : String} :
    (jsGet ps k).isSome ↔ k ∈ paramKeys ps := by
  rcases h : jsGet ps k with _ | v
  · simp [jsGet_eq_none_iff.mp h]
  · simp only [Option.isSome_some, true_iff]
    exact List.mem_map.mpr ⟨(k, v), jsGet_mem h, rfl⟩

theorem if_if_false_eq_or (a b : Bool) :
    (if a then true else if b then true else false) = (a || b) := by
  cases a <;> cases b <;> simp

theorem paramValueDiffers_eq_false_iff (w v : Param) :
    paramValueDiffers w v = false ↔ w = v := by
  unfold paramValueDiffers
  simp only [Bool.or_eq_false_iff, bne_eq_false_iff_eq]
  cases w
  cases v
  simp only [Param.mk.injEq]
  tauto

theorem hasConfigurationChanged_some (e updated : AgentConfig) :
    hasConfigurationChanged (some e) updated =
      ((e.pluginParameters.length != updated.pluginParameters.length) ||
       updated.pluginParameters.any (fun kv =>
         match jsGet e.pluginParameters kv.fst with
         | none => true
         | some w => paramValueDiffers w kv.snd)) := by
  simp only [hasConfigurationChanged]
  rw [if_if_false_eq_or]

theorem entry_agrees_of_any_false {e updated : AgentConfig}
    (hany : updated.pluginParameters.any (fun kv =>
        match jsGet e.pluginParameters kv.fst with
        | none => true
        | some w => paramValueDiffers w kv.snd) = false)
    {k : String} {v : Param} (hm : (k, v) ∈ updated.pluginParameters) :
    jsGet e.pluginParameters k = some v := by
  rw [List.any_eq_false] at hany
  have h := hany (k, v) hm
  rcases hj : jsGet e.pluginParameters k with _ | w
  · rw [hj] at h
    simp at h
  · rw [hj] at h
    simp only [Bool.not_eq_true] at h
    rw [paramValueDiffers_eq_false_iff] at h
    rw [h]

theorem hasChanged_eq_params_false (t u : String) (ps : PluginParams)
    (hnd : (paramKeys ps).Nodup) :
    hasConfigurationChanged (some { pluginType := t, pluginParameters := ps })
      { pluginType := u, pluginParameters := ps } = false := by
  rw [hasConfigurationChanged_some]
  rw [Bool.or_eq_false_iff]
  refine ⟨by simp, ?_⟩
  rw [List.any_eq_false]
  rintro ⟨k, v⟩ hmem
  have hk : jsGet ps k = some v := jsGet_of_mem_nodup hnd hmem
  simp only [hk, Bool.not_eq_true]
  rw [paramValueDiffers_eq_false_iff]

/-! ## Claim C2: change detection characterisation -/

/-- C2. Change detection: hasConfigurationChanged returns false exactly
when the prior configuration is present and the two parameter maps have
identical key sets with pairwise-equal attributes (stated as equality of
the lookups at every key); equivalently it returns true iff the prior
configuration is absent, the key counts differ, or some key differs in an
attribute. The Nodup hypotheses record that TypeScript Record objects have
unique keys. -/
theorem c2_change_detection_iff (existing : Option AgentConfig) (updated : AgentConfig)
    (hE : ∀ e, existing = some e → (paramKeys e.pluginParameters).Nodup)
    (hM : (paramKeys updated.pluginParameters).Nodup) :
    hasConfigurationChanged existing updated = false ↔
      ∃ e, existing = some e ∧
        ∀ k, jsGet e.pluginParameters k = jsGet updated.pluginParameters k := by
  cases existing with
  | none => simp [hasConfigurationChanged]
  | some e =>
    have hEn := hE e rfl
    rw [hasConfigurationChanged_some]
    rw [Bool.or_eq_false_iff]
    constructor
    · rintro ⟨hlen, hany⟩
      rw [bne_eq_false_iff_eq] at hlen
      refine ⟨e, rfl, ?_⟩
      have hsub : (paramKeys updated.pluginParameters).toFinset ⊆
          (paramKeys e.pluginParameters).toFinset := by
        intro x hx
        rw [List.mem_toFinset] at hx ⊢
        obtain ⟨⟨k, v⟩, hmem, hfst⟩ := List.mem_map.mp hx
        subst hfst
        rw [← jsGet_isSome_iff]
        rw [entry_agrees_of_any_false hany hmem]
        rfl
      have hcards : (paramKeys updated.pluginParameters).toFinset =
          (paramKeys e.pluginParameters).toFinset := by
        apply Finset.eq_of_subset_of_card_le hsub
        rw [List.toFinset_card_of_nodup hEn, List.toFinset_card_of_nodup hM]
        simp only [paramKeys, List.length_map]
        omega
      intro k
      rcases hk : jsGet updated.pluginParameters k with _ | v
      · rw [jsGet_eq_none_iff]
        intro hke
        have : k ∈ paramKeys updated.pluginParameters := by
          rw [← List.mem_toFinset, hcards, List.mem_toFinset]
          exact hke
        exact (jsGet_eq_none_iff.mp hk) this
      · exact entry_agrees_of_any_false hany (jsGet_mem hk)
    · rintro ⟨e2, he2, hkeq⟩
      injection he2 with he2
      subst he2
      have hsets : ∀ k, k ∈ paramKeys e.pluginParameters ↔
          k ∈ paramKeys updated.pluginParameters := by
        intro k
        rw [← jsGet_isSome_iff, ← jsGet_isSome_iff, hkeq k]
      constructor
      · rw [bne_eq_false_iff_eq]
        have : (paramKeys e.pluginParameters).toFinset =
            (paramKeys updated.pluginParameters).toFinset := by
          ext x
          rw [List.mem_toFinset, List.mem_toFinset]
          exact hsets x
        have hc := congrArg Finset.card this
        rw [List.toFinset_card_of_nodup hEn, List.toFinset_card_of_nodup hM] at hc
        simpa [paramKeys] using hc
      · rw [List.any_eq_false]
        rintro ⟨k, v⟩ hmem
        have hMk : jsGet updated.pluginParameters k = some v := jsGet_of_mem_nodup hM hmem
        have hEk : jsGet e.pluginParameters k = some v := by rw [hkeq k, hMk]
        simp only [hEk, Bool.not_eq_true]
        rw [paramValueDiffers_eq_false_iff]

/-- Witness for C2 at a concrete input: a present configuration compared
against an identical one is reported unchanged. -/
theorem c2_change_detection_iff_witness :
    hasConfigurationChanged
      (some { pluginType := "t"
              pluginParameters := [("K", { type := "string", description := "d"
                                           required := none, default := none })] })
      { pluginType := "t"
        pluginParameters := [("K", { type := "string", description := "d"
                                     required := none, default := none })] } = false :=
  (c2_change_detection_iff _ _ (by intro e he; injection he with he; subst he; decide)
    (by decide)).mpr ⟨_, rfl, fun _ => rfl⟩

/-! ## Claim C10: change detection ignores pluginType -/

/-- C10. The result of hasConfigurationChanged on a present prior
configuration depends only on the two pluginParameters maps, and equal
maps (with the Record key-uniqueness invariant) always yield false, even
when the pluginType fields differ; such a configuration is therefore never
classified as changed. -/
theorem c10_ignores_pluginType (t1 t2 u1 u2 : String) (ps qs : PluginParams) :
    hasConfigurationChanged (some { pluginType := t1, pluginParameters := ps })
        { pluginType := t2, pluginParameters := qs }
      = hasConfigurationChanged (some { pluginType := u1, pluginParameters := ps })
        { pluginType := u2, pluginParameters := qs } ∧
    ((paramKeys ps).Nodup →
      hasConfigurationChanged (some { pluginType := t1, pluginParameters := ps })
        { pluginType := t2, pluginParameters := ps } = false) := by
  constructor
  · rw [hasConfigurationChanged_some, hasConfigurationChanged_some]
  · intro hnd
    exact hasChanged_eq_params_false t1 t2 ps hnd

/-- Witness for C10 at a concrete input: two configurations with equal
parameter maps but different pluginType values compare as unchanged. -/
theorem c10_ignores_pluginType_witness :
    hasConfigurationChanged
      (some { pluginType := "elizaos:plugin:1.0.0"
              pluginParameters := [("K", { type := "string", description := "d"
                                           required := none, default := none })] })
      { pluginType := "other:type:9.9.9"
        pluginParameters := [("K", { type := "string", description := "d"
                                     required := none, default := none })] } = false :=
  (c10_ignores_pluginType "elizaos:plugin:1.0.0" "other:type:9.9.9" "x" "y"
    [("K", { type := "string", description := "d", required := none, default := none })]
    [("K", { type := "string", description := "d", required := none, default := none })]).2
    (by decide)

/-! ## Claim C1: additive merge -/

/-- C1. Additive merge: for every existing configuration and every
discovered declaration list, mergeEnvVariables keeps every parameter key of
the existing configuration with exactly the attributes it had; no existing
entry is removed or overwritten, regardless of the discovered list. (When
the existing configuration is absent it has no keys and the claim is
vacuous, so the present case carries all the content.) -/
theorem c1_additive_merge (e : AgentConfig) (discovered : List EnvVariable)
    (k : String) (p : Param) (h : jsGet e.pluginParameters k = some p) :
    jsGet (mergeEnvVariables (some e) discovered).pluginParameters k = some p := by
  unfold mergeEnvVariables
  exact jsGet_foldl_attach_preserved h discovered

/-- Witness for C1 at a concrete input: an existing entry named K survives
a merge against a discovered declaration of the same name with different
attributes, unchanged. -/
theorem c1_additive_merge_witness :
    jsGet (mergeEnvVariables
      (some { pluginType := "t"
              pluginParameters := [("K", { type := "string", description := "old"
                                           required := some true, default := some "x" })] })
      [{ name := "K", type := "number", description := "new"
         required := some false, defaultValue := some "y" }]).pluginParameters "K"
    = some { type := "string", description := "old", required := some true, default := some "x" } :=
  c1_additive_merge _ _ "K" _ (by decide)

/-! ## Claim C5: merge idempotence -/

/-- C5. Merge idempotence: merging the same discovered list into the result
of a first merge changes nothing, for every existing configuration
(possibly absent) and every discovered list. -/
theorem c5_merge_idempotent (existing : Option AgentConfig) (discovered : List EnvVariable) :
    mergeEnvVariables (some (mergeEnvVariables existing discovered)) discovered
      = mergeEnvVariables existing discovered := by
  have hall : ∀ v ∈ discovered,
      (jsGet (mergeEnvVariables existing discovered).pluginParameters v.name).isSome := by
    intro v hv
    unfold mergeEnvVariables
    exact jsGet_foldl_attach_mem hv _
  conv_lhs => rw [mergeEnvVariables]
  rw [foldl_attach_of_all_present hall]

/-! ## Claim C9: attribute attachment on insert -/

/-- Counterexample for C9 as stated: a discovered declaration with a
present but empty-string defaultValue is inserted without the default
attribute, because the source guards the attachment with the truthiness
check if envVar.defaultValue rather than a presence check. -/
theorem c9_attach_cex :
    ({ name := "K", type := "string", description := "d"
       required := none, defaultValue := some "" } : EnvVariable).defaultValue = some "" ∧
    jsGet (mergeEnvVariables none
      [{ name := "K", type := "string", description := "d"
         required := none, defaultValue := some "" }]).pluginParameters "K"
      = some { type := "string", description := "d", required := none, default := none } ∧
    (none : Option String) ≠ some "" := by
  refine ⟨rfl, by decide, by decide⟩

/-- C9 as amended: an inserted parameter always carries the declaration's
type and description, carries required exactly when the declaration has a
required field (including required = false), and carries default exactly
when the declaration's defaultValue is present AND non-empty (JavaScript
truthiness), not merely present. -/
theorem c9_attach_amended (params : PluginParams) (v : EnvVariable)
    (h : jsGet params v.name = none) :
    jsGet (attachDiscovered params v) v.name
      = some { type := v.type, description := v.description, required := v.required
               default := if jsTruthyStr v.defaultValue then v.defaultValue else none } := by
  unfold attachDiscovered
  rw [h]
  simp only
  rw [jsGet_append_right h]
  simp only [jsGet, if_pos rfl]
  rcases hr : v.required with _ | r <;> rcases hd : v.defaultValue with _ | d <;>
    simp [jsTruthyStr, hr, hd] <;> split <;> simp_all

/-- Witness for C9 as amended: inserting a fresh declaration with
required = false and a non-empty default attaches both attributes. -/
theorem c9_attach_amended_witness :
    jsGet (attachDiscovered []
      { name := "K", type := "boolean", description := "d"
        required := some false, defaultValue := some "1" }) "K"
      = some { type := "boolean", description := "d", required := some false
               default := some "1" } :=
  c9_attach_amended [] _ (by decide)

/-! ## Claim C6: dedup determinism -/

theorem findIdx_eq_iff_first {α : Type} (p : α → Bool) :
    ∀ (l : List α) (n : Nat) (a : α), l[n]? = some a → p a = true →
      (l.findIdx p = n ↔ ∀ j, j < n → ∀ b, l[j]? = some b → p b = false) := by
  intro l
  induction l with
  | nil => intro n a h; simp at h
  | cons c t ih =>
    intro n a hget hpa
    cases n with
    | zero =>
      simp only [List.getElem?_cons_zero, Option.some.injEq] at hget
      subst hget
      rw [List.findIdx_cons, hpa]
      simp
    | succ m =>
      simp only [List.getElem?_cons_succ] at hget
      rw [List.findIdx_cons]
      cases hpc : p c with
      | true =>
        simp only [cond_true]
        constructor
        · intro h
          omega
        · intro hall
          have h0 := hall 0 (by omega) c (by simp)
          rw [hpc] at h0
          simp at h0
      | false =>
        simp only [cond_false]
        rw [Nat.add_right_cancel_iff]
        rw [ih m a hget hpa]
        constructor
        · intro hall j hj b hb
          cases j with
          | zero =>
            simp only [List.getElem?_cons_zero, Option.some.injEq] at hb
            subst hb
            exact hpc
          | succ i =>
            simp only [List.getElem?_cons_succ] at hb
            exact hall i (by omega) b hb
        · intro hall i hi b hb
          exact hall (i + 1) (by omega) b (by simpa using hb)

theorem dedup_aux (self : List EnvVariable) :
    ∀ (t : List EnvVariable) (n : Nat) (seen : List String),
      self.drop n = t →
      (∀ s, s ∈ seen ↔ ∃ j, j < n ∧ ∃ b, self[j]? = some b ∧ b.name = s) →
      ((List.enumFrom n t).filter
          (fun p => self.findIdx (fun e => e.name == p.snd.name) == p.fst)).map Prod.snd
        = keepFirstByName seen t := by
  intro t
  induction t with
  | nil => intro n seen _ _; simp [keepFirstByName]
  | cons v rest ih =>
    intro n seen hdrop hseen
    have hself_n : self[n]? = some v := by
      have h0 : (self.drop n)[0]? = self[n + 0]? := List.getElem?_drop self n 0
      rw [hdrop] at h0
      simpa using h0.symm
    have hdrop1 : self.drop (n + 1) = rest := by
      have h1 : (self.drop n).drop 1 = self.drop (n + 1) := List.drop_drop 1 n self
      rw [hdrop] at h1
      simpa using h1.symm
    have henum : List.enumFrom n (v :: rest) = (n, v) :: List.enumFrom (n + 1) rest := rfl
    rw [henum]
    simp only [List.filter_cons]
    have hchar := findIdx_eq_iff_first (fun e => e.name == v.name) self n v hself_n (by simp)
    by_cases hmem : v.name ∈ seen
    · have hne : self.findIdx (fun e => e.name == v.name) ≠ n := by
        intro hfi
        have hall := hchar.mp hfi
        obtain ⟨j, hj, b, hb, hname⟩ := (hseen v.name).mp hmem
        have hpb := hall j hj b hb
        simp [hname] at hpb
      have hcond : ((self.findIdx (fun e => e.name == v.name) == n) : Bool) = false := by
        simpa using hne
      simp only [hcond, Bool.false_eq_true, if_false]
      simp only [keepFirstByName]
      rw [if_pos hmem]
      apply ih (n + 1) seen hdrop1
      intro s
      rw [hseen s]
      constructor
      · rintro ⟨j, hj, b, hb, hname⟩
        exact ⟨j, by omega, b, hb, hname⟩
      · rintro ⟨j, hj, b, hb, hname⟩
        rcases Nat.lt_succ_iff_lt_or_eq.mp hj with hj2 | hj2
        · exact ⟨j, hj2, b, hb, hname⟩
        · subst hj2
          rw [hself_n] at hb
          injection hb with hb
          subst hb
          rw [← hname]
          exact (hseen v.name).mp hmem
    · have heq : self.findIdx (fun e => e.name == v.name) = n := by
        rw [hchar]
        intro j hj b hb
        by_contra hpb
        simp only [Bool.not_eq_false, beq_iff_eq] at hpb
        exact hmem ((hseen v.name).mpr ⟨j, hj, b, hb, hpb⟩)
      have hcond : ((self.findIdx (fun e => e.name == v.name) == n) : Bool) = true := by
        simpa using heq
      simp only [hcond, if_true, List.map_cons]
      simp only [keepFirstByName]
      rw [if_neg hmem]
      congr 1
      apply ih (n + 1) (v.name :: seen) hdrop1
      intro s
      simp only [List.mem_cons]
      constructor
      · rintro (hs | hs)
        · exact ⟨n, by omega, v, hself_n, hs.symm⟩
        · obtain ⟨j, hj, b, hb, hname⟩ := (hseen s).mp hs
          exact ⟨j, by omega, b, hb, hname⟩
      · rintro ⟨j, hj, b, hb, hname⟩
        rcases Nat.lt_succ_iff_lt_or_eq.mp hj with hj2 | hj2
        · exact Or.inr ((hseen s).mpr ⟨j, hj2, b, hb, hname⟩)
        · subst hj2
          rw [hself_n] at hb
          injection hb with hb
          subst hb
          exact Or.inl hname.symm

/-- C6. Dedup determinism: deduplication by name keeps exactly the first
occurrence of each name in list order (it equals the single-pass
first-wins filter), and in particular a list with two same-named
declarations that differ in description retains only the first
description. -/
theorem c6_dedup_first_wins :
    (∀ self : List EnvVariable, dedupByName self = keepFirstByName [] self) ∧
    dedupByName
        [{ name := "K", type := "string", description := "first"
           required := none, defaultValue := none },
         { name := "K", type := "string", description := "second"
           required := none, defaultValue := none }]
      = [{ name := "K", type := "string", description := "first"
           required := none, defaultValue := none }] := by
  constructor
  · intro self
    unfold dedupByName
    have h := dedup_aux self self 0 [] (by simp) (by simp)
    simpa [List.enum] using h
  · decide

/-! ## Claim C7: batch scheduling -/

theorem foldl_append_eq {β : Type} (ls : List (List β)) (acc : List β) :
    ls.foldl (fun a l => a ++ l) acc = acc ++ concatLists ls := by
  induction ls generalizing acc with
  | nil => simp [concatLists]
  | cons hd tl ih =>
    have h2 : concatLists (hd :: tl) = hd ++ concatLists tl := by
      simp only [concatLists, List.foldl_cons, List.nil_append]
      exact ih hd
    simp only [List.foldl_cons]
    rw [ih, h2, List.append_assoc]

theorem concatLists_cons {β : Type} (hd : List β) (tl : List (List β)) :
    concatLists (hd :: tl) = hd ++ concatLists tl := by
  simp only [concatLists, List.foldl_cons, List.nil_append]
  exact foldl_append_eq tl hd

theorem concatLists_append {β : Type} (l1 l2 : List (List β)) :
    concatLists (l1 ++ l2) = concatLists l1 ++ concatLists l2 := by
  simp only [concatLists, List.foldl_append]
  rw [foldl_append_eq]
  rfl

theorem concatLists_length {β : Type} (ls : List (List β)) :
    (concatLists ls).length = (ls.map List.length).sum := by
  induction ls with
  | nil => simp [concatLists]
  | cons hd tl ih =>
    rw [concatLists_cons]
    simp [List.length_append, ih]

theorem processBatchesAux_eq {α β : Type} (analyze : α → List β) (files : List α) :
    ∀ i acc d, processBatchesAux analyze files i acc d
      = (acc ++ concatLists ((files.drop i).map analyze), d + delayCount files i) := by
  have key : ∀ m i acc d, files.length - i ≤ m →
      processBatchesAux analyze files i acc d
        = (acc ++ concatLists ((files.drop i).map analyze), d + delayCount files i) := by
    intro m
    induction m with
    | zero =>
      intro i acc d hm
      have hge : ¬ i < files.length := by omega
      rw [processBatchesAux, delayCount]
      rw [if_neg hge, if_neg hge]
      rw [List.drop_eq_nil_of_le (by omega)]
      simp [concatLists]
    | succ m ihm =>
      intro i acc d hm
      by_cases hlt : i < files.length
      · rw [processBatchesAux, delayCount]
        rw [if_pos hlt, if_pos hlt]
        simp only
        rw [ihm (i + 5) _ _ (by omega)]
        rw [foldl_append_eq]
        have hsplit : files.drop i = (files.drop i).take 5 ++ files.drop (i + 5) := by
          rw [← List.drop_drop]
          exact (List.take_append_drop 5 (files.drop i)).symm
        simp only [Prod.mk.injEq]
        refine ⟨?_, ?_⟩
        · conv_rhs => rw [hsplit]
          rw [List.map_append, concatLists_append, List.append_assoc]
        · by_cases hmore : i + 5 < files.length
          · rw [if_pos hmore, if_pos hmore]
            omega
          · rw [if_neg hmore, if_neg hmore]
            omega
      · rw [processBatchesAux, delayCount]
        rw [if_neg hlt, if_neg hlt]
        rw [List.drop_eq_nil_of_le (by omega)]
        simp [concatLists]
  intro i acc d
  exact key (files.length - i) i acc d le_rfl

/-- C7. Batch scheduling: for an artifact list of length 12 the loop takes
exactly the three slices of sizes 5, 5 and 2; the accumulated declaration
list is the concatenation of the per-artifact extraction results in list
order (Promise.all returns results in input order, so intra-batch
completion order is immaterial in the model); the loop suspends for the
rate-limit delay exactly twice, only when further batches remain; and the
accumulated length is the sum of the twelve individual result lengths. -/
theorem c7_batch_scheduling {α β : Type} (analyze : α → List β) (files : List α)
    (h : files.length = 12) :
    (batchSlices files 0).map List.length = [5, 5, 2] ∧
    processBatches analyze files = (concatLists (files.map analyze), 2) ∧
    (processBatches analyze files).fst.length = ((files.map analyze).map List.length).sum := by
  have hdelay : delayCount files 0 = 2 := by
    have h0 : (0 : Nat) < files.length := by omega
    have h5 : (5 : Nat) < files.length := by omega
    have h10 : (10 : Nat) < files.length := by omega
    have h10b : (10 : Nat) + 5 < files.length → False := by omega
    have h15 : ¬ (15 : Nat) < files.length := by omega
    rw [delayCount, if_pos h0]
    rw [show (0 : Nat) + 5 = 5 from rfl]
    rw [delayCount, if_pos h5]
    rw [show (5 : Nat) + 5 = 10 from rfl]
    rw [delayCount, if_pos h10]
    rw [show (10 : Nat) + 5 = 15 from rfl]
    rw [delayCount, if_neg h15]
    rw [if_pos h5, if_pos h10, if_neg h15]
  have hproc : processBatches analyze files = (concatLists (files.map analyze), 2) := by
    rw [processBatches, processBatchesAux_eq]
    rw [List.drop_zero, hdelay]
    simp
  refine ⟨?_, hproc, ?_⟩
  · have h0 : (0 : Nat) < files.length := by omega
    have h5 : (5 : Nat) < files.length := by omega
    have h10 : (10 : Nat) < files.length := by omega
    have h15 : ¬ (15 : Nat) < files.length := by omega
    rw [batchSlices, if_pos h0]
    rw [show (0 : Nat) + 5 = 5 from rfl]
    rw [batchSlices, if_pos h5]
    rw [show (5 : Nat) + 5 = 10 from rfl]
    rw [batchSlices, if_pos h10]
    rw [show (10 : Nat) + 5 = 15 from rfl]
    rw [batchSlices, if_neg h15]
    simp [List.length_take, List.length_drop, h]
  · rw [hproc, concatLists_length]

/-- Witness for C7 at a concrete input: twelve artifacts whose extraction
yields one declaration each accumulate to those twelve declarations in
order, with two rate-limit suspensions. -/
theorem c7_batch_scheduling_witness :
    processBatches (fun n : Nat => [n]) (List.range 12) = (List.range 12, 2) := by
  rw [(c7_batch_scheduling (fun n : Nat => [n]) (List.range 12) (by simp)).2.1]
  decide

/-! ## Claim C8: traversal failure tolerance -/

theorem walkItems_append (dirPath : String) (l1 l2 : List FSEntry) :
    ∀ files, walkItems files dirPath (l1 ++ l2)
      = match walkItems files dirPath l1 with
        | .ok f => walkItems f dirPath l2
        | .error e => .error e := by
  induction l1 with
  | nil => intro files; simp [walkItems]
  | cons hd tl ih =>
    intro files
    cases hd with
    | file name =>
      simp only [List.cons_append, walkItems]
      exact ih _
    | dir name readable entries =>
      simp only [List.cons_append, walkItems]
      by_cases hskip : skipDirNames.contains name
      · rw [if_pos hskip, if_pos hskip]
        exact ih _
      · rw [if_neg hskip, if_neg hskip]
        by_cases hr : readable = true
        · rw [if_pos hr, if_pos hr]
          cases hw : walkItems files (dirPath ++ "/" ++ name) entries with
          | ok f =>
            simp only [hw]
            exact ih f
          | error e => simp only [hw]
        · rw [if_neg hr, if_neg hr]

/-- Counterexample for C8 as stated: a working tree holding one eligible
source file and then an unreadable subdirectory makes the whole traversal
return the readdir error, not the partial artifact list collected before
the failure; the failure is not confined to the unreadable subtree. -/
theorem c8_traversal_cex :
    scanFilesForEnvVars "repo"
        (FSEntry.dir "repo" true [FSEntry.file "a.ts", FSEntry.dir "sub" false []])
      = .error () ∧
    (Except.error () : Except Unit (List String)) ≠ .ok ["repo/a.ts"] := by
  constructor
  · have hc : skipDirNames.contains "sub" = false := by decide
    simp only [scanFilesForEnvVars, walkItems, hc, Bool.false_eq_true, if_false]
  · simp

/-- C8 as amended: a directory-read failure during artifact selection is
not confined to its subtree; as soon as the loop reaches a non-denied
unreadable directory after any successfully processed prefix, the whole
walk evaluates to the propagated error and the already collected artifacts
are discarded, leaving the package-level handler to classify the package
as failed. -/
theorem c8_traversal_amended (pre post cs : List FSEntry) (dirPath sub : String)
    (files acc : List String)
    (hpre : walkItems files dirPath pre = .ok acc)
    (hskip : skipDirNames.contains sub = false) :
    walkItems files dirPath (pre ++ FSEntry.dir sub false cs :: post) = .error () := by
  rw [walkItems_append, hpre]
  have hnot : sub ∉ skipDirNames := by simpa using hskip
  simp [walkItems, hnot]

/-- Witness for C8 as amended: the prefix holding one eligible file walks
successfully, and appending an unreadable directory makes the whole walk
fail. -/
theorem c8_traversal_amended_witness :
    walkItems [] "repo" ([FSEntry.file "a.ts"] ++ FSEntry.dir "sub" false [] :: [])
      = .error () :=
  c8_traversal_amended [FSEntry.file "a.ts"] [] [] "repo" "sub" [] ["repo/a.ts"]
    (by
      have he : (allowedExtensions.any (fun ext => strEndsWith "a.ts" ext)) = true := by
        decide
      simp only [walkItems, he, if_true]
      rfl)
    (by decide)

/-! ## Claim C3: version derivation -/

theorem splitDot_no_dot {l : List Char} (h : ∀ c ∈ l, c ≠ '.') :
    splitDotChars l = [l] := by
  induction l with
  | nil => rfl
  | cons c rest ih =>
    have hc : c ≠ '.' := h c (by simp)
    simp only [splitDotChars, if_neg hc]
    rw [ih fun x hx => h x (by simp [hx])]

theorem splitDot_append {l1 : List Char} (l2 : List Char) (h : ∀ c ∈ l1, c ≠ '.') :
    splitDotChars (l1 ++ '.' :: l2) = l1 :: splitDotChars l2 := by
  induction l1 with
  | nil => simp [splitDotChars]
  | cons c rest ih =>
    have hc : c ≠ '.' := h c (by simp)
    simp only [List.cons_append, splitDotChars, if_neg hc, List.append_eq]
    rw [ih fun x hx => h x (by simp [hx])]

theorem takeWhile_all {α : Type} {p : α → Bool} {l : List α}
    (h : ∀ c ∈ l, p c = true) : l.takeWhile p = l := by
  induction l with
  | nil => rfl
  | cons c rest ih =>
    rw [List.takeWhile_cons, h c (by simp)]
    simp only [if_true]
    rw [ih fun x hx => h x (by simp [hx])]

theorem digitChar_mem_decimal {m : Nat} (h : m < 10) :
    Nat.digitChar m ∈ decimalChars := by
  interval_cases m <;> decide

theorem hexDigitVal_digitChar {m : Nat} (h : m < 10) :
    hexDigitVal (Nat.digitChar m) = m := by
  interval_cases m <;> decide

theorem decimal_ne_dot {x : Char} (hx : x ∈ decimalChars) : x ≠ '.' := by
  fin_cases hx <;> decide

theorem decimal_isDigit {x : Char} (hx : x ∈ decimalChars) : x.isDigit = true := by
  fin_cases hx <;> decide

theorem decimal_not_ws {x : Char} (hx : x ∈ decimalChars) : jsWhitespace x = false := by
  fin_cases hx <;> decide

theorem stripSign_decimal {c : Char} (hc : c ∈ decimalChars) (rest : List Char) :
    stripSign (c :: rest) = (false, c :: rest) := by
  fin_cases hc <;> rfl

theorem stripHexMark_decimal {c : Char} (hc : c ∈ decimalChars) {rest : List Char}
    (hrest : ∀ x ∈ rest, x ∈ decimalChars) :
    stripHexMark (c :: rest) = (10, c :: rest) := by
  cases rest with
  | nil => fin_cases hc <;> rfl
  | cons c2 rest2 =>
    have hc2 : c2 ∈ decimalChars := hrest c2 (by simp)
    fin_cases hc <;> fin_cases hc2 <;> rfl

theorem toDigitsCore_chars : ∀ (fuel n : Nat) (ds : List Char),
    (∀ c ∈ ds, c ∈ decimalChars) →
    ∀ c ∈ Nat.toDigitsCore 10 fuel n ds, c ∈ decimalChars := by
  intro fuel
  induction fuel with
  | zero =>
    intro n ds hds c hc
    exact hds c hc
  | succ fuel ih =>
    intro n ds hds c hc
    simp only [Nat.toDigitsCore] at hc
    have hstep : ∀ x ∈ Nat.digitChar (n % 10) :: ds, x ∈ decimalChars := by
      intro x hx
      rcases List.mem_cons.mp hx with hx | hx
      · subst hx
        exact digitChar_mem_decimal (Nat.mod_lt _ (by omega))
      · exact hds x hx
    by_cases h0 : n / 10 = 0
    · rw [if_pos h0] at hc
      exact hstep c hc
    · rw [if_neg h0] at hc
      exact ih (n / 10) _ hstep c hc

theorem toDigitsCore_ne_nil : ∀ (fuel n : Nat) (ds : List Char),
    fuel ≠ 0 ∨ ds ≠ [] → Nat.toDigitsCore 10 fuel n ds ≠ [] := by
  intro fuel
  induction fuel with
  | zero =>
    intro n ds h
    simp only [Nat.toDigitsCore]
    tauto
  | succ fuel ih =>
    intro n ds _
    simp only [Nat.toDigitsCore]
    by_cases h0 : n / 10 = 0
    · rw [if_pos h0]
      simp
    · rw [if_neg h0]
      exact ih (n / 10) _ (Or.inr (by simp))

theorem valAux_toDigitsCore : ∀ (fuel n : Nat), n < fuel → ∀ (ds : List Char) (acc : Nat),
    valAux acc (Nat.toDigitsCore 10 fuel n ds) = valAux (absorb acc n) ds := by
  intro fuel
  induction fuel with
  | zero =>
    intro n hn
    omega
  | succ fuel ih =>
    intro n hn ds acc
    simp only [Nat.toDigitsCore]
    by_cases h0 : n / 10 = 0
    · rw [if_pos h0]
      have hlt : n < 10 := by omega
      rw [absorb, if_pos hlt]
      simp only [valAux, List.foldl_cons]
      rw [hexDigitVal_digitChar (by omega), Nat.mod_eq_of_lt hlt]
    · rw [if_neg h0]
      have hfuel : n / 10 < fuel := by omega
      rw [ih (n / 10) hfuel (Nat.digitChar (n % 10) :: ds) acc]
      simp only [valAux, List.foldl_cons]
      rw [hexDigitVal_digitChar (Nat.mod_lt _ (by omega))]
      congr 1
      have habs : absorb acc n = absorb acc (n / 10) * 10 + n % 10 := by
        rw [absorb, if_neg (show ¬ n < 10 by omega)]
      rw [habs]

theorem absorb_zero : ∀ n, absorb 0 n = n := by
  intro n
  induction n using Nat.strong_induction_on with
  | _ n ih =>
    rw [absorb]
    by_cases h : n < 10
    · rw [if_pos h]
      omega
    · rw [if_neg h]
      rw [ih (n / 10) (by omega)]
      omega

theorem asString_data : ∀ s : String, s.data.asString = s := by
  intro s
  cases s
  rfl

theorem repr_data (n : Nat) : (Nat.repr n).data = Nat.toDigitsCore 10 (n + 1) n [] := rfl

theorem repr_chars_decimal (n : Nat) : ∀ c ∈ (Nat.repr n).data, c ∈ decimalChars := by
  rw [repr_data]
  exact toDigitsCore_chars (n + 1) n [] (by simp)

theorem repr_ne_nil (n : Nat) : (Nat.repr n).data ≠ [] := by
  rw [repr_data]
  exact toDigitsCore_ne_nil _ _ _ (Or.inl (by omega))

theorem digitsToNat_repr (n : Nat) : digitsToNat 10 (Nat.repr n).data = n := by
  rw [repr_data]
  have h := valAux_toDigitsCore (n + 1) n (by omega) [] 0
  have h2 : digitsToNat 10 (Nat.toDigitsCore 10 (n + 1) n [])
      = valAux 0 (Nat.toDigitsCore 10 (n + 1) n []) := rfl
  rw [h2, h]
  exact absorb_zero n

theorem parseIntJs_decimal {l : List Char} (hne : l ≠ [])
    (hd : ∀ c ∈ l, c ∈ decimalChars) :
    parseIntJs (List.asString l) = some ((digitsToNat 10 l : Nat) : Int) := by
  obtain ⟨c, rest, rfl⟩ := List.exists_cons_of_ne_nil hne
  have hc : c ∈ decimalChars := hd c (by simp)
  have hrest : ∀ x ∈ rest, x ∈ decimalChars := fun x hx => hd x (by simp [hx])
  have hdata : (List.asString (c :: rest)).data = c :: rest := rfl
  simp only [parseIntJs, hdata, List.dropWhile_cons, decimal_not_ws hc, Bool.false_eq_true,
    if_false, stripSign_decimal hc rest, stripHexMark_decimal hc hrest,
    takeWhile_all (fun x hx => decimal_isDigit (hd x hx))]
  simp

theorem parseIntJs_repr (n : Nat) : parseIntJs (Nat.repr n) = some ((n : Nat) : Int) := by
  have h := parseIntJs_decimal (repr_ne_nil n) (fun c hc => repr_chars_decimal n c hc)
  rw [asString_data, digitsToNat_repr] at h
  exact h

theorem toString_intOfNat (n : Nat) : toString ((n : Nat) : Int) = Nat.repr n := rfl

/-- Counterexample for C3 as stated: the three-component version string
1.2.x has a non-numeric patch component, so the claim says it is returned
unchanged; the code instead rebuilds it with parseInt(x) falling back to 0
and increments, producing 1.2.1. -/
theorem c3_version_cex :
    bumpVersion "1.2.x" = "1.2.1" ∧ ("1.2.1" : String) ≠ "1.2.x" := by
  constructor
  · decide
  · decide

/-- C3 as amended: a version that splits on dots into exactly three
canonical decimal numerals is rebuilt with the patch incremented (1.2.3
becomes 1.2.4); a version with a different component count is returned
unchanged (so 1.2.3-beta.0, which splits into four parts, is unchanged);
but a three-component version with a non-numeric component is not returned
unchanged: each component is read by parseInt with a 0 fallback and the
string is rebuilt (see the counterexample). -/
theorem c3_version_amended :
    (∀ a b c : Nat,
      bumpVersion (Nat.repr a ++ "." ++ Nat.repr b ++ "." ++ Nat.repr c)
        = Nat.repr a ++ "." ++ Nat.repr b ++ "." ++ Nat.repr (c + 1)) ∧
    (∀ v : String, (jsSplitDot v).length ≠ 3 → bumpVersion v = v) ∧
    bumpVersion "1.2.3-beta.0" = "1.2.3-beta.0" := by
  refine ⟨?_, ?_, by decide⟩
  · intro a b c
    have happ : ∀ x y : String, (x ++ y).data = x.data ++ y.data := fun x y => rfl
    have hdata : (Nat.repr a ++ "." ++ Nat.repr b ++ "." ++ Nat.repr c).data
        = (Nat.repr a).data ++ '.' :: ((Nat.repr b).data ++ '.' :: (Nat.repr c).data) := by
      rw [happ, happ, happ, happ]
      simp [List.append_assoc]
    have hsplit : jsSplitDot (Nat.repr a ++ "." ++ Nat.repr b ++ "." ++ Nat.repr c)
        = [Nat.repr a, Nat.repr b, Nat.repr c] := by
      unfold jsSplitDot
      rw [hdata]
      rw [splitDot_append _ (fun x hx => decimal_ne_dot (repr_chars_decimal a x hx))]
      rw [splitDot_append _ (fun x hx => decimal_ne_dot (repr_chars_decimal b x hx))]
      rw [splitDot_no_dot (fun x hx => decimal_ne_dot (repr_chars_decimal c x hx))]
      simp [asString_data]
    unfold bumpVersion
    rw [hsplit]
    simp only [parseIntJs_repr, Option.getD_some]
    rw [toString_intOfNat, toString_intOfNat]
    have hsucc : ((c : Nat) : Int) + 1 = (((c + 1 : Nat)) : Int) := by omega
    rw [hsucc, toString_intOfNat]
  · intro v hv
    unfold bumpVersion
    rcases hj : jsSplitDot v with _ | ⟨p1, _ | ⟨p2, _ | ⟨p3, _ | ⟨p4, l4⟩⟩⟩⟩
    · rfl
    · rfl
    · rfl
    · exfalso
      apply hv
      rw [hj]
      rfl
    · rfl

/-- Witness for C3 as amended: a two-component version string is returned
unchanged. -/
theorem c3_version_amended_witness : bumpVersion "1.2" = "1.2" :=
  c3_version_amended.2.1 "1.2" (by decide)

/-! ## Claim C4: extractor fallback -/

/-- Counterexample for C4 as stated: the claim covers both cited
implementations, but the agentConfigScan variant of analyzeFileWithLLM
attempts only strict JSON parsing of the whole response, so the embedded
array response of the claim yields the empty list there, not exactly one
declaration named API_KEY. -/
theorem c4_extractor_cex :
    extractEnvVarsStrict
        "Here you go: [\x7b\"name\":\"API_KEY\",\"type\":\"string\",\"description\":\"key\"\x7d]"
      = [] ∧
    ([] : List JValue).length ≠ 1 := by
  constructor
  · rfl
  · decide

/-- C4 as amended: the migratePlugins extractor locates the embedded
array-shaped substring, parses it, and returns exactly one declaration
named API_KEY for the claim's first response, and returns the empty list
without raising for the second; the agentConfigScan variant only attempts
strict parsing, so it returns the empty list for both responses; neither
variant ever propagates a parse error (both are total functions into
declaration lists, with every failure branch returning the empty list). -/
theorem c4_extractor_amended :
    extractEnvVarsFallback
        "Here you go: [\x7b\"name\":\"API_KEY\",\"type\":\"string\",\"description\":\"key\"\x7d]"
      = [JValue.obj [("name", JValue.str "API_KEY"), ("type", JValue.str "string"),
                     ("description", JValue.str "key")]] ∧
    (extractEnvVarsFallback
        "Here you go: [\x7b\"name\":\"API_KEY\",\"type\":\"string\",\"description\":\"key\"\x7d]").head?.map
        (fun v => jvStringField v "name") = some (some "API_KEY") ∧
    extractEnvVarsFallback "no env vars found" = [] ∧
    extractEnvVarsStrict "no env vars found" = [] := by
  refine ⟨rfl, rfl, rfl, rfl⟩

end PluginsAutomation
